import Mathlib

/-!
Verification of the Demandware variation-extractor scripts.

The repository consists of several near-identical Node.js scripts that
discover a product's variation dimensions (color, size), enumerate the
cartesian product of combinations, fetch each combination's state under a
bounded worker pool with a retrying fetcher, and persist results to a
structured (JSONL) sink and a tabular (CSV) sink.

This file gives a shallow embedding of the relevant functions and proves
or refutes the frozen specification claims about them.  Network effects
are modelled by oracles (one outcome per attempt / per combination), and
the cooperative concurrency of the worker pool is modelled by a
nondeterministic small-step transition relation over pool states.
-/

namespace Scarp

/-! ## CSV helpers (part_002 lines 62-119): csvEscape and splitCSVLine -/

/-- JavaScript values that can reach csvEscape: we keep the two nullish
values distinct from strings, since csvEscape treats them specially. -/
inductive JSVal where
  | null
  | undef
  | str (s : String)
deriving DecidableEq

/-- The regex test in csvEscape: the string needs quoting when it contains
a double quote, a comma, a newline or a carriage return. -/
def needsQuote (cs : List Char) : Bool :=
  cs.any (fun c => c = '"' || c = ',' || c = '\n' || c = '\r')

/-- s.replace of every double quote by two double quotes. -/
def doubleChars : List Char → List Char
  | [] => []
  | c :: cs => if c = '"' then '"' :: '"' :: doubleChars cs else c :: doubleChars cs

/-- csvEscape on the character list of a string. -/
def csvEscapeChars (cs : List Char) : List Char :=
  if needsQuote cs then '"' :: (doubleChars cs ++ ['"']) else cs

/-- csvEscape (part_002 lines 62-67): nullish values become the empty
string; a string that needs quoting is wrapped in quotes with inner
quotes doubled; otherwise it is returned unchanged. -/
def csvEscape : JSVal → String
  | .null => ""
  | .undef => ""
  | .str s => ⟨csvEscapeChars s.data⟩

/-- The character scan of splitCSVLine (part_002 lines 94-119): cur is the
field being accumulated, out the fields already emitted, the Bool is the
inQuotes flag.  A double quote inside quotes followed by another double
quote emits one literal quote and skips both. -/
def splitAux : List Char → Bool → List Char → List (List Char) → List (List Char)
  | [], _, cur, out => out ++ [cur]
  | c :: rest, inQ, cur, out =>
    if c = '"' then
      if inQ then
        if rest.head? = some '"' then splitAux rest.tail true (cur ++ ['"']) out
        else splitAux rest false cur out
      else splitAux rest true cur out
    else if c = ',' then
      if inQ then splitAux rest true (cur ++ [c]) out
      else splitAux rest false [] (out ++ [cur])
    else splitAux rest inQ (cur ++ [c]) out
termination_by cs _ _ _ => cs.length
decreasing_by
  all_goals simp_wf
  all_goals omega

/-- splitCSVLine (part_002 lines 94-119). -/
def splitCSVLine (line : String) : List String :=
  (splitAux line.data false [] []).map (fun cs => ⟨cs⟩)

/-- Array.prototype.join with separator "," as used at part_002 line 320. -/
def joinComma : List String → String
  | [] => ""
  | [x] => x
  | x :: xs => x ++ "," ++ joinComma xs

/-- Character-list version of joinComma, used to reason about the scan. -/
def joinCommaChars : List (List Char) → List Char
  | [] => []
  | [x] => x
  | x :: xs => x ++ ',' :: joinCommaChars xs

theorem doubleChars_quote (cs : List Char) :
    doubleChars ('"' :: cs) = '"' :: '"' :: doubleChars cs := by
  simp [doubleChars]

theorem doubleChars_char (c : Char) (cs : List Char) (hq : c ≠ '"') :
    doubleChars (c :: cs) = c :: doubleChars cs := by
  simp [doubleChars, hq]

theorem splitAux_nil (inQ : Bool) (cur : List Char) (out : List (List Char)) :
    splitAux [] inQ cur out = out ++ [cur] := by
  simp [splitAux]

theorem splitAux_open (rest : List Char) (cur : List Char) (out : List (List Char)) :
    splitAux ('"' :: rest) false cur out = splitAux rest true cur out := by
  simp [splitAux]

theorem splitAux_pair (rest : List Char) (cur : List Char) (out : List (List Char)) :
    splitAux ('"' :: '"' :: rest) true cur out = splitAux rest true (cur ++ ['"']) out := by
  simp [splitAux]

theorem splitAux_close (rest : List Char) (cur : List Char) (out : List (List Char))
    (h : rest.head? ≠ some '"') :
    splitAux ('"' :: rest) true cur out = splitAux rest false cur out := by
  simp [splitAux, h]

theorem splitAux_comma_in (rest : List Char) (cur : List Char) (out : List (List Char)) :
    splitAux (',' :: rest) true cur out = splitAux rest true (cur ++ [',']) out := by
  simp [splitAux]

theorem splitAux_comma_out (rest : List Char) (cur : List Char) (out : List (List Char)) :
    splitAux (',' :: rest) false cur out = splitAux rest false [] (out ++ [cur]) := by
  simp [splitAux]

theorem splitAux_char (c : Char) (rest : List Char) (inQ : Bool) (cur : List Char)
    (out : List (List Char)) (hq : c ≠ '"') (hc : c ≠ ',') :
    splitAux (c :: rest) inQ cur out = splitAux rest inQ (cur ++ [c]) out := by
  simp [splitAux, hq, hc]

theorem splitAux_char_inq (c : Char) (rest : List Char) (cur : List Char)
    (out : List (List Char)) (hq : c ≠ '"') :
    splitAux (c :: rest) true cur out = splitAux rest true (cur ++ [c]) out := by
  by_cases hc : c = ','
  · subst hc; exact splitAux_comma_in rest cur out
  · exact splitAux_char c rest true cur out hq hc

/-- Consuming an unquoted field: characters that are neither quotes nor
commas are appended verbatim to the current field. -/
theorem splitAux_consume_plain (cs : List Char) (rest : List Char) (cur : List Char)
    (out : List (List Char)) (h : ∀ c ∈ cs, c ≠ '"' ∧ c ≠ ',') :
    splitAux (cs ++ rest) false cur out = splitAux rest false (cur ++ cs) out := by
  induction cs generalizing cur with
  | nil => simp
  | cons c cs ih =>
    have hc := h c (List.mem_cons_self c cs)
    rw [List.cons_append, splitAux_char c (cs ++ rest) false cur out hc.1 hc.2,
      ih (cur ++ [c]) (fun d hd => h d (List.mem_cons_of_mem c hd))]
    simp

/-- Consuming the interior of a quoted field: the quote-doubled encoding of
cs is decoded back to cs while the inQuotes flag stays set. -/
theorem splitAux_consume_quoted (cs : List Char) (rest : List Char) (cur : List Char)
    (out : List (List Char)) :
    splitAux (doubleChars cs ++ rest) true cur out = splitAux rest true (cur ++ cs) out := by
  induction cs generalizing cur with
  | nil => simp [doubleChars]
  | cons c cs ih =>
    by_cases hq : c = '"'
    · subst hq
      rw [doubleChars_quote, List.cons_append, List.cons_append, splitAux_pair,
        ih (cur ++ ['"'])]
      simp
    · rw [doubleChars_char c cs hq, List.cons_append, splitAux_char_inq c _ cur out hq,
        ih (cur ++ [c])]
      simp

/-- Consuming one whole csvEscape-encoded field, given that what follows is
either the end of the line or a comma separator (never a quote). -/
theorem splitAux_consume_field (f : List Char) (rest : List Char) (cur : List Char)
    (out : List (List Char)) (h : rest.head? ≠ some '"') :
    splitAux (csvEscapeChars f ++ rest) false cur out = splitAux rest false (cur ++ f) out := by
  unfold csvEscapeChars
  by_cases hnq : needsQuote f
  · simp only [if_pos hnq]
    have : ('"' :: (doubleChars f ++ ['"'])) ++ rest = '"' :: (doubleChars f ++ ('"' :: rest)) := by
      simp
    rw [this, splitAux_open, splitAux_consume_quoted, splitAux_close rest (cur ++ f) out h]
  · simp only [if_neg hnq]
    apply splitAux_consume_plain
    intro c hc
    by_contra hcon
    have : needsQuote f = true := by
      unfold needsQuote
      rw [List.any_eq_true]
      refine ⟨c, hc, ?_⟩
      rcases Decidable.not_and_iff_or_not.mp hcon with h1 | h1 <;>
        simp [Decidable.not_not.mp h1]
    exact hnq this

/-- The whole-line round trip over character lists. -/
theorem splitAux_roundtrip (fs : List (List Char)) (out : List (List Char)) (hne : fs ≠ []) :
    splitAux (joinCommaChars (fs.map csvEscapeChars)) false [] out = out ++ fs := by
  induction fs generalizing out with
  | nil => exact absurd rfl hne
  | cons f fs ih =>
    cases fs with
    | nil =>
      show splitAux (csvEscapeChars f) false [] out = out ++ [f]
      have h := splitAux_consume_field f [] [] out (by simp)
      rw [List.append_nil] at h
      rw [h, splitAux_nil]
      simp
    | cons g gs =>
      show splitAux (csvEscapeChars f ++ ',' :: joinCommaChars ((g :: gs).map csvEscapeChars))
          false [] out = out ++ f :: g :: gs
      rw [splitAux_consume_field f _ [] out (by simp), List.nil_append,
        splitAux_comma_out, ih (out ++ [f]) (by simp)]
      simp

theorem joinComma_data (l : List String) :
    (joinComma l).data = joinCommaChars (l.map String.data) := by
  induction l with
  | nil => rfl
  | cons x xs ih =>
    cases xs with
    | nil => rfl
    | cons y ys =>
      show (x ++ "," ++ joinComma (y :: ys)).data = x.data ++ ',' :: joinCommaChars _
      rw [String.data_append, String.data_append, ih]
      simp [joinCommaChars]

/-- C10 counterexample: the round trip fails on the empty field list.
csvEscape-joining an empty list of fields gives the empty line, but
splitCSVLine always emits at least one field, so it parses the empty line
as the singleton list containing the empty field, not as the empty list. -/
theorem csv_roundtrip_fails_on_empty_list :
    splitCSVLine (joinComma (([] : List String).map (fun s => csvEscape (JSVal.str s))))
      = [""] ∧ ([""] : List String) ≠ [] := by
  constructor
  · show splitCSVLine "" = [""]
    unfold splitCSVLine
    rw [show ("".data : List Char) = [] from rfl, splitAux_nil]
    rfl
  · simp

/-- C10 (amended: the field list must be nonempty, since splitCSVLine
always returns at least one field): for every nonempty list of field
strings containing no newline characters, splitting the comma-join of
their csvEscape images returns exactly the original list, and csvEscape
maps null and undefined to the empty string. -/
theorem csvEscape_splitCSVLine_roundtrip (fields : List String)
    (hne : fields ≠ [])
    (_hnl : ∀ f ∈ fields, ¬ '\n' ∈ f.data ∧ ¬ '\r' ∈ f.data) :
    splitCSVLine (joinComma (fields.map (fun s => csvEscape (JSVal.str s)))) = fields
    ∧ csvEscape JSVal.null = "" ∧ csvEscape JSVal.undef = "" := by
  refine ⟨?_, rfl, rfl⟩
  unfold splitCSVLine
  rw [joinComma_data]
  have hmap : (fields.map (fun s => csvEscape (JSVal.str s))).map String.data
      = (fields.map String.data).map csvEscapeChars := by
    simp [csvEscape]
  rw [hmap, splitAux_roundtrip (fields.map String.data) [] (by simpa using hne)]
  simp only [List.nil_append, List.map_map]
  have : ((fun cs => (⟨cs⟩ : String)) ∘ String.data) = id := funext (fun _ => rfl)
  rw [this, List.map_id]

/-- Witness for C10's theorem at a concrete input exercising a plain
field, a comma field, a quoted field and an empty field. -/
theorem csvEscape_splitCSVLine_roundtrip_witness :
    splitCSVLine (joinComma ((["plain", "a,b", "a\"b", ""] : List String).map
      (fun s => csvEscape (JSVal.str s)))) = ["plain", "a,b", "a\"b", ""] :=
  (csvEscape_splitCSVLine_roundtrip ["plain", "a,b", "a\"b", ""]
    (by decide) (by decide)).1

/-! ## Combination Generator (part_002 lines 378-380, part_003 313-315) -/

/-- The nested task loop: for each color, for each size, push the pair.
The first dimension (color) varies slowest. -/
def productTasks (colors : List γ) (sizes : List σ) : List (γ × σ) :=
  colors.flatMap (fun c => sizes.map (fun s => (c, s)))

theorem productTasks_nil (sizes : List σ) :
    productTasks ([] : List γ) sizes = [] := rfl

theorem productTasks_cons (c : γ) (cs : List γ) (sizes : List σ) :
    productTasks (c :: cs) sizes =
      sizes.map (fun s => (c, s)) ++ productTasks cs sizes := rfl

theorem productTasks_length (colors : List γ) (sizes : List σ) :
    (productTasks colors sizes).length = colors.length * sizes.length := by
  induction colors with
  | nil => simp [productTasks]
  | cons c cs ih =>
    simp [productTasks_cons, ih, Nat.succ_mul, Nat.add_comm]

theorem productTasks_get? (colors : List γ) (sizes : List σ)
    (i j : Nat) (hi : i < colors.length) (hj : j < sizes.length) :
    (productTasks colors sizes).get? (i * sizes.length + j) =
      some (colors.get ⟨i, hi⟩, sizes.get ⟨j, hj⟩) := by
  induction colors generalizing i with
  | nil => simp at hi
  | cons c cs ih =>
    cases i with
    | zero =>
      rw [productTasks_cons]
      rw [List.get?_append (by simpa using hj)]
      simp [List.get?_map, List.get?_eq_get hj]
    | succ i' =>
      rw [productTasks_cons]
      have hlen : (sizes.map (fun s => (c, s))).length = sizes.length := by simp
      have harith : (i' + 1) * sizes.length + j =
          (sizes.map (fun s => (c, s))).length + (i' * sizes.length + j) := by
        rw [hlen]; ring
      rw [harith, List.get?_append_right (Nat.le_add_right _ _)]
      simp only [Nat.add_sub_cancel_left]
      exact ih i' (Nat.lt_of_succ_lt_succ hi)

/-- C3: the Combination Generator (the nested color/size task loop)
enumerates the full cartesian product of the two dimension value lists in
dimension-major order (the first dimension, color, varies slowest), with
length equal to the product of the value counts; in particular for
colors A,B and sizes S,M it yields exactly (A,S),(A,M),(B,S),(B,M).
Determinism and side-effect freedom hold because productTasks is a pure
function of its arguments. -/
theorem combination_generator_cartesian (colors : List γ) (sizes : List σ) :
    (productTasks colors sizes).length = colors.length * sizes.length
    ∧ (∀ (i j : Nat) (hi : i < colors.length) (hj : j < sizes.length),
        (productTasks colors sizes).get? (i * sizes.length + j) =
          some (colors.get ⟨i, hi⟩, sizes.get ⟨j, hj⟩))
    ∧ productTasks ["A", "B"] ["S", "M"] =
        [("A", "S"), ("A", "M"), ("B", "S"), ("B", "M")] :=
  ⟨productTasks_length colors sizes, productTasks_get? colors sizes, rfl⟩

/-- Witness for C3's theorem: the combination at flat index 1*2+0 of the
A,B × S,M product is (B, S). -/
theorem combination_generator_cartesian_witness :
    (productTasks ["A", "B"] ["S", "M"]).get? (1 * 2 + 0) = some ("B", "S") :=
  (combination_generator_cartesian ["A", "B"] ["S", "M"]).2.1 1 0
    (by decide) (by decide)

/-! ## Retrying Fetcher: fetchJson (part_002 lines 189-226, part_003 108-145)

The network is modelled by an oracle giving the outcome of each attempt
(0-based).  An attempt either yields a JSON value, fails at the transport
or HTTP-status level, or returns an HTTP-success response whose body fails
to parse as JSON (res.json() throws).  In the source, the last two cases
are indistinguishable: both are caught by the same catch block of the
retry loop. -/

/-- Outcome of one network attempt, distinguishing malformed-payload
responses from transport/status failures. -/
inductive AttemptOutcome (α : Type) where
  | ok (j : α)
  | httpError (e : String)
  | malformedBody (e : String)
deriving DecidableEq

/-- How the catch block of fetchJson sees an attempt: a malformed body on
an HTTP-success response throws from res.json() and lands in the same
catch as a transport or status failure. -/
def attemptToExcept : AttemptOutcome α → Except String α
  | .ok j => .ok j
  | .httpError e => .error e
  | .malformedBody e => .error e

/-- The retry loop of fetchJson starting at the given attempt index.
Returns the final outcome, the number of network calls made from this
attempt on, and the list of backoff delays slept (in order).  On failure
of attempt `a` with `a < retries` the loop sleeps retryDelayMs*(a+1) and
retries; after the final attempt it rethrows the last error. -/
def fetchLoop (oracle : Nat → Except String α) (retries retryDelayMs attempt : Nat) :
    Except String α × Nat × List Nat :=
  match oracle attempt with
  | .ok j => (.ok j, 1, [])
  | .error e =>
    if _h : attempt < retries then
      let r := fetchLoop oracle retries retryDelayMs (attempt + 1)
      (r.1, r.2.1 + 1, retryDelayMs * (attempt + 1) :: r.2.2)
    else (.error e, 1, [])
termination_by retries - attempt
decreasing_by omega

/-- fetchJson (part_002 lines 189-226): run the retry loop from attempt 0. -/
def fetchJsonRun (oracle : Nat → Except String α) (retries retryDelayMs : Nat) :
    Except String α × Nat × List Nat :=
  fetchLoop oracle retries retryDelayMs 0

/-- fetchJson as called on a network that can also deliver malformed
payloads on HTTP-success responses. -/
def fetchJsonRunO (oracle : Nat → AttemptOutcome α) (retries retryDelayMs : Nat) :
    Except String α × Nat × List Nat :=
  fetchJsonRun (fun k => attemptToExcept (oracle k)) retries retryDelayMs

theorem fetchLoop_ok (oracle : Nat → Except String α) (retries B a : Nat) (j : α)
    (h : oracle a = .ok j) :
    fetchLoop oracle retries B a = (.ok j, 1, []) := by
  unfold fetchLoop
  rw [h]

theorem fetchLoop_last_error (oracle : Nat → Except String α) (retries B a : Nat) (e : String)
    (h : oracle a = .error e) (ha : retries ≤ a) :
    fetchLoop oracle retries B a = (.error e, 1, []) := by
  unfold fetchLoop
  rw [h]
  simp [Nat.not_lt.mpr ha]

theorem fetchLoop_retry (oracle : Nat → Except String α) (retries B a : Nat) (e : String)
    (h : oracle a = .error e) (ha : a < retries) :
    fetchLoop oracle retries B a =
      ((fetchLoop oracle retries B (a + 1)).1,
       (fetchLoop oracle retries B (a + 1)).2.1 + 1,
       B * (a + 1) :: (fetchLoop oracle retries B (a + 1)).2.2) := by
  conv_lhs => unfold fetchLoop
  rw [h]
  simp [ha]

/-- Generalized schedule lemma: if every attempt in [a, R] fails, the loop
from attempt a returns the last error, makes R-a+1 calls, and sleeps
B*(a+1), ..., B*R. -/
theorem fetchLoop_all_fail (oracle : Nat → Except String α) (R B : Nat)
    (err : Nat → String) (a : Nat) (ha : a ≤ R)
    (hf : ∀ k, a ≤ k → k ≤ R → oracle k = .error (err k)) :
    fetchLoop oracle R B a =
      (.error (err R), R - a + 1, (List.range' (a + 1) (R - a)).map (fun k => B * k)) := by
  suffices h : ∀ n a, a ≤ R → (∀ k, a ≤ k → k ≤ R → oracle k = .error (err k)) →
      R - a = n →
      fetchLoop oracle R B a =
        (.error (err R), R - a + 1, (List.range' (a + 1) (R - a)).map (fun k => B * k)) from
    h (R - a) a ha hf rfl
  intro n
  induction n with
  | zero =>
    intro a ha hf hn
    have haR : a = R := by omega
    have hfR : oracle R = .error (err R) := hf R (by omega) le_rfl
    rw [show a = R from haR]
    rw [fetchLoop_last_error oracle R B R (err R) hfR le_rfl]
    simp
  | succ n ih =>
    intro a ha hf hn
    have haR : a < R := by omega
    rw [fetchLoop_retry oracle R B a (err a) (hf a le_rfl ha) haR]
    rw [ih (a + 1) (by omega) (fun k hk1 hk2 => hf k (by omega) hk2) (by omega)]
    have h1 : R - (a + 1) + 1 + 1 = R - a + 1 := by omega
    have h2 : List.range' (a + 1) (R - a) =
        (a + 1) :: List.range' (a + 2) (R - (a + 1)) := by
      have h3 : R - a = (R - (a + 1)) + 1 := by omega
      rw [h3, List.range'_succ]
    rw [h2]
    simp [h1]

/-- Generalized success lemma: if attempts in [a, R) fail and attempt R
succeeds, the loop from a returns the success, makes R-a+1 calls, and
sleeps B*(a+1), ..., B*R. -/
theorem fetchLoop_fail_then_ok (oracle : Nat → Except String α) (R B : Nat) (j : α)
    (a : Nat) (ha : a ≤ R)
    (hf : ∀ k, a ≤ k → k < R → ∃ e, oracle k = .error e)
    (hok : oracle R = .ok j) :
    fetchLoop oracle R B a =
      (.ok j, R - a + 1, (List.range' (a + 1) (R - a)).map (fun k => B * k)) := by
  suffices h : ∀ n a, a ≤ R → (∀ k, a ≤ k → k < R → ∃ e, oracle k = .error e) →
      R - a = n →
      fetchLoop oracle R B a =
        (.ok j, R - a + 1, (List.range' (a + 1) (R - a)).map (fun k => B * k)) from
    h (R - a) a ha hf rfl
  intro n
  induction n with
  | zero =>
    intro a ha hf hn
    have haR : a = R := by omega
    rw [show a = R from haR]
    rw [fetchLoop_ok oracle R B R j hok]
    simp
  | succ n ih =>
    intro a ha hf hn
    have haR : a < R := by omega
    obtain ⟨e, he⟩ := hf a le_rfl haR
    rw [fetchLoop_retry oracle R B a e he haR]
    rw [ih (a + 1) (by omega) (fun k hk1 hk2 => hf k (by omega) hk2) (by omega)]
    have h1 : R - (a + 1) + 1 + 1 = R - a + 1 := by omega
    have h2 : List.range' (a + 1) (R - a) =
        (a + 1) :: List.range' (a + 2) (R - (a + 1)) := by
      have h3 : R - a = (R - (a + 1)) + 1 := by omega
      rw [h3, List.range'_succ]
    rw [h2]
    simp [h1]

/-- C2: for every retry count R and backoff base B: a fetch whose attempts
all fail makes exactly R+1 network calls and returns the last attempt's
error as a terminal failure with no further attempt; a fetch failing on
attempts 1..R (0-based 0..R-1) and succeeding on attempt R+1 makes exactly
R+1 calls and returns success; in both cases the delay slept before the
k-th retry (1-based) is B*k, i.e. linear backoff B multiplied by the
number of the attempt that just failed. -/
theorem fetchJson_retry_semantics (R B : Nat) (oracle : Nat → Except String α) :
    (∀ err : Nat → String, (∀ k, k ≤ R → oracle k = .error (err k)) →
        fetchJsonRun oracle R B =
          (.error (err R), R + 1, (List.range' 1 R).map (fun k => B * k)))
    ∧ (∀ j : α, (∀ k, k < R → ∃ e, oracle k = .error e) → oracle R = .ok j →
        fetchJsonRun oracle R B =
          (.ok j, R + 1, (List.range' 1 R).map (fun k => B * k))) := by
  constructor
  · intro err hf
    unfold fetchJsonRun
    rw [fetchLoop_all_fail oracle R B err 0 (Nat.zero_le R) (fun k _ hk => hf k hk)]
    simp
  · intro j hf hok
    unfold fetchJsonRun
    rw [fetchLoop_fail_then_ok oracle R B j 0 (Nat.zero_le R) (fun k _ hk => hf k hk) hok]
    simp

/-- Witness for C2's theorem: with R = 2 retries and base 100, a network
that always fails yields 3 calls, the terminal error, and backoff delays
100, 200. -/
theorem fetchJson_retry_semantics_witness :
    fetchJsonRun (fun _ => (Except.error "boom" : Except String Nat)) 2 100
      = (Except.error "boom", 3, [100, 200]) :=
  (fetchJson_retry_semantics 2 100 (fun _ => Except.error "boom")).1
    (fun _ => "boom") (fun _ _ => rfl)

theorem fetchLoop_calls_pos (oracle : Nat → Except String α) (R B a : Nat) :
    1 ≤ (fetchLoop oracle R B a).2.1 := by
  unfold fetchLoop
  cases h : oracle a with
  | ok j => simp
  | error e =>
    by_cases ha : a < R <;> simp [ha]

/-- If attempts a..k all fail and k is not the final attempt, the loop
from a makes at least (k - a) + 2 calls: it necessarily calls again after
attempt k. -/
theorem fetchLoop_calls_lower (oracle : Nat → Except String α) (R B k : Nat)
    (hk : k < R) :
    ∀ a, a ≤ k → (∀ m, a ≤ m → m ≤ k → ∃ e, oracle m = .error e) →
      (k - a) + 2 ≤ (fetchLoop oracle R B a).2.1 := by
  suffices h : ∀ n a, a ≤ k → (∀ m, a ≤ m → m ≤ k → ∃ e, oracle m = .error e) →
      k - a = n → (k - a) + 2 ≤ (fetchLoop oracle R B a).2.1 from
    fun a ha hf => h (k - a) a ha hf rfl
  intro n
  induction n with
  | zero =>
    intro a ha hf hn
    obtain ⟨e, he⟩ := hf a le_rfl (by omega)
    rw [fetchLoop_retry oracle R B a e he (by omega)]
    have hpos := fetchLoop_calls_pos oracle R B (a + 1)
    simp only []
    omega
  | succ n ih =>
    intro a ha hf hn
    obtain ⟨e, he⟩ := hf a le_rfl (by omega)
    rw [fetchLoop_retry oracle R B a e he (by omega)]
    have hrec := ih (a + 1) (by omega) (fun m hm1 hm2 => hf m (by omega) hm2) (by omega)
    simp only []
    omega

/-- A network whose first attempt returns an HTTP-success response with a
malformed JSON body, and whose later attempts succeed. -/
def malformedThenOkOracle : Nat → AttemptOutcome Nat :=
  fun k => if k = 0 then .malformedBody "Unexpected token in JSON" else .ok 7

/-- C6 counterexample: with retries = 1 and a first attempt that returns
an HTTP-success response whose body is malformed JSON, fetchJson makes a
second network call (2 calls in total, not 1) and even adopts the second
attempt's value as a success: the malformed payload is retried rather
than reported as a permanent non-retried ParseError. -/
theorem fetchJson_retries_malformed_body :
    fetchJsonRunO malformedThenOkOracle 1 100 = (Except.ok 7, 2, [100])
    ∧ (fetchJsonRunO malformedThenOkOracle 1 100).2.1 ≠ 1 := by
  have h0 : (fun k => attemptToExcept (malformedThenOkOracle k)) 0
      = (Except.error "Unexpected token in JSON" : Except String Nat) := rfl
  have h1 : (fun k => attemptToExcept (malformedThenOkOracle k)) 1
      = (Except.ok 7 : Except String Nat) := rfl
  have hrun : fetchJsonRunO malformedThenOkOracle 1 100 = (Except.ok 7, 2, [100]) := by
    unfold fetchJsonRunO fetchJsonRun
    rw [fetchLoop_retry _ 1 100 0 _ h0 (by omega), fetchLoop_ok _ 1 100 1 7 h1]
  exact ⟨hrun, by rw [hrun]; decide⟩

/-- C6 (amended: the code does not distinguish malformed payloads from
transport failures): a structurally malformed body on an HTTP-success
response throws from res.json() into the same catch block as a transport
or status failure, so it is retried like one: if it occurs on a non-final
attempt the fetcher makes at least one further network call, and only
when every attempt up to the last has failed does the last attempt's
error (malformed or transport) surface as the terminal error. -/
theorem fetchJson_malformed_retried_like_transport (R B : Nat)
    (oracle : Nat → AttemptOutcome α) :
    (fetchJsonRunO oracle R B =
      fetchJsonRun (fun k => attemptToExcept (oracle k)) R B)
    ∧ (∀ k e, k < R → (∀ m, m < k → ∃ e2, attemptToExcept (oracle m) = .error e2) →
        oracle k = .malformedBody e →
        k + 2 ≤ (fetchJsonRunO oracle R B).2.1)
    ∧ (∀ err : Nat → String, (∀ m, m ≤ R → attemptToExcept (oracle m) = .error (err m)) →
        fetchJsonRunO oracle R B =
          (.error (err R), R + 1, (List.range' 1 R).map (fun k => B * k))) := by
  refine ⟨rfl, ?_, ?_⟩
  · intro k e hk hprev hmal
    have hall : ∀ m, 0 ≤ m → m ≤ k → ∃ e2,
        (fun k => attemptToExcept (oracle k)) m = .error e2 := by
      intro m _ hm
      rcases Nat.lt_or_ge m k with hlt | hge
      · exact hprev m hlt
      · have hmk : m = k := by omega
        exact ⟨e, by rw [hmk]; simp [hmal, attemptToExcept]⟩
    have := fetchLoop_calls_lower (fun k => attemptToExcept (oracle k)) R B k hk 0
      (Nat.zero_le k) hall
    simpa using this
  · intro err hf
    unfold fetchJsonRunO fetchJsonRun
    rw [fetchLoop_all_fail _ R B err 0 (Nat.zero_le R) (fun m _ hm => hf m hm)]
    simp

/-- Witness for C6's amended theorem: a malformed body on attempt 0 of 3
leads to at least 2 calls. -/
theorem fetchJson_malformed_retried_like_transport_witness :
    2 ≤ (fetchJsonRunO malformedThenOkOracle 2 100).2.1 :=
  (fetchJson_malformed_retried_like_transport 2 100 malformedThenOkOracle).2.1
    0 "Unexpected token in JSON" (by omega) (fun m hm => absurd hm (by omega)) rfl

/-! ## Timer lifecycle of fetchJson (C7)

fetchJson creates one AbortController and arms one setTimeout before the
retry loop, and clears it in the finally block after the loop: the event
trace of one call is a single timerSet, then every attempt and backoff
sleep, then a single timerClear on whichever path the call exits. -/

inductive FetchEvent where
  | timerSet
  | attemptCall (k : Nat)
  | backoff (d : Nat)
  | timerClear
deriving DecidableEq

def isAttemptEvent : FetchEvent → Bool
  | .attemptCall _ => true
  | _ => false

/-- Events of the retry loop body from a given attempt on (part_002 lines
194-222: the loop performs the fetch, and on a non-final failure sleeps
the backoff delay and retries). -/
def fetchLoopEvents (oracle : Nat → Except String α) (retries B attempt : Nat) :
    List FetchEvent :=
  FetchEvent.attemptCall attempt ::
    match oracle attempt with
    | .ok _ => []
    | .error _ =>
      if _h : attempt < retries then
        FetchEvent.backoff (B * (attempt + 1)) :: fetchLoopEvents oracle retries B (attempt + 1)
      else []
termination_by retries - attempt
decreasing_by omega

/-- Event trace of one fetchJson call (part_002 lines 189-226): the timer
is armed once before the first attempt and cleared once in the finally
block, on success and failure exits alike. -/
def fetchJsonEvents (oracle : Nat → Except String α) (retries B : Nat) : List FetchEvent :=
  FetchEvent.timerSet :: (fetchLoopEvents oracle retries B 0 ++ [FetchEvent.timerClear])

theorem fetchLoopEvents_ok (oracle : Nat → Except String α) (R B a : Nat) (j : α)
    (h : oracle a = .ok j) :
    fetchLoopEvents oracle R B a = [FetchEvent.attemptCall a] := by
  unfold fetchLoopEvents
  rw [h]

theorem fetchLoopEvents_err_last (oracle : Nat → Except String α) (R B a : Nat) (e : String)
    (h : oracle a = .error e) (ha : R ≤ a) :
    fetchLoopEvents oracle R B a = [FetchEvent.attemptCall a] := by
  unfold fetchLoopEvents
  rw [h]
  simp [Nat.not_lt.mpr ha]

theorem fetchLoopEvents_err_retry (oracle : Nat → Except String α) (R B a : Nat) (e : String)
    (h : oracle a = .error e) (ha : a < R) :
    fetchLoopEvents oracle R B a =
      FetchEvent.attemptCall a :: FetchEvent.backoff (B * (a + 1)) ::
        fetchLoopEvents oracle R B (a + 1) := by
  conv_lhs => unfold fetchLoopEvents
  rw [h]
  simp [ha]

/-- The loop itself never touches the timer: no timerSet or timerClear
event occurs inside it. -/
theorem fetchLoopEvents_no_timer (oracle : Nat → Except String α) (R B a : Nat) :
    ∀ e ∈ fetchLoopEvents oracle R B a,
      e ≠ FetchEvent.timerSet ∧ e ≠ FetchEvent.timerClear := by
  suffices h : ∀ n a, R - a = n → ∀ e ∈ fetchLoopEvents oracle R B a,
      e ≠ FetchEvent.timerSet ∧ e ≠ FetchEvent.timerClear from h (R - a) a rfl
  intro n
  induction n with
  | zero =>
    intro a hn e he
    cases hor : oracle a with
    | ok j =>
      rw [fetchLoopEvents_ok oracle R B a j hor] at he
      simp at he
      simp [he]
    | error er =>
      rw [fetchLoopEvents_err_last oracle R B a er hor (by omega)] at he
      simp at he
      simp [he]
  | succ n ih =>
    intro a hn e he
    cases hor : oracle a with
    | ok j =>
      rw [fetchLoopEvents_ok oracle R B a j hor] at he
      simp at he
      simp [he]
    | error er =>
      rw [fetchLoopEvents_err_retry oracle R B a er hor (by omega)] at he
      simp at he
      rcases he with he | he | he
      · simp [he]
      · simp [he]
      · exact ih (a + 1) (by omega) e he

/-- A network on which every attempt fails. -/
def alwaysFailOracle : Nat → Except String Nat :=
  fun _ => .error "ETIMEDOUT"

/-- C7 counterexample: with retries = 2 and a network that fails every
attempt, one logical fetch performs 3 attempts under a single timer: the
trace contains one timerSet event, not one per attempt, so each attempt
is not governed by its own timeout timer — all attempts and backoff
sleeps share the one timer armed at call start. -/
theorem fetchJson_shared_timer_across_attempts :
    fetchJsonEvents alwaysFailOracle 2 100 =
      [FetchEvent.timerSet, FetchEvent.attemptCall 0, FetchEvent.backoff 100,
       FetchEvent.attemptCall 1, FetchEvent.backoff 200, FetchEvent.attemptCall 2,
       FetchEvent.timerClear]
    ∧ ((fetchJsonEvents alwaysFailOracle 2 100).countP (fun e => isAttemptEvent e) = 3)
    ∧ ((fetchJsonEvents alwaysFailOracle 2 100).count FetchEvent.timerSet = 1)
    ∧ (fetchJsonEvents alwaysFailOracle 2 100).countP (fun e => isAttemptEvent e) ≠
        (fetchJsonEvents alwaysFailOracle 2 100).count FetchEvent.timerSet := by
  have hlist : fetchJsonEvents alwaysFailOracle 2 100 =
      [FetchEvent.timerSet, FetchEvent.attemptCall 0, FetchEvent.backoff 100,
       FetchEvent.attemptCall 1, FetchEvent.backoff 200, FetchEvent.attemptCall 2,
       FetchEvent.timerClear] := by
    unfold fetchJsonEvents
    rw [fetchLoopEvents_err_retry alwaysFailOracle 2 100 0 "ETIMEDOUT" rfl (by omega),
      fetchLoopEvents_err_retry alwaysFailOracle 2 100 1 "ETIMEDOUT" rfl (by omega),
      fetchLoopEvents_err_last alwaysFailOracle 2 100 2 "ETIMEDOUT" rfl (by omega)]
    rfl
  refine ⟨hlist, ?_, ?_, ?_⟩ <;> rw [hlist] <;> decide

/-- C7 (amended: the timer is per logical fetch call, not per attempt): one
fetchJson call arms exactly one timeout timer, spanning all of its up to
R+1 attempts and backoff sleeps, and clears it exactly once, as the last
action of the call, on every exit path (success, terminal failure); no
timer outlives the call, but the attempts share the single time budget. -/
theorem fetchJson_timer_lifecycle (R B : Nat) (oracle : Nat → Except String α) :
    (fetchJsonEvents oracle R B).count FetchEvent.timerSet = 1
    ∧ (fetchJsonEvents oracle R B).count FetchEvent.timerClear = 1
    ∧ (fetchJsonEvents oracle R B).head? = some FetchEvent.timerSet
    ∧ (fetchJsonEvents oracle R B).getLast? = some FetchEvent.timerClear := by
  have hno := fetchLoopEvents_no_timer oracle R B 0
  refine ⟨?_, ?_, rfl, ?_⟩
  · unfold fetchJsonEvents
    rw [List.count_cons, List.count_append]
    have h1 : (fetchLoopEvents oracle R B 0).count FetchEvent.timerSet = 0 := by
      rw [List.count_eq_zero]
      intro hmem
      exact (hno _ hmem).1 rfl
    simp [h1]
  · unfold fetchJsonEvents
    rw [List.count_cons, List.count_append]
    have h1 : (fetchLoopEvents oracle R B 0).count FetchEvent.timerClear = 0 := by
      rw [List.count_eq_zero]
      intro hmem
      exact (hno _ hmem).2 rfl
    simp
    exact h1
  · unfold fetchJsonEvents
    rw [show FetchEvent.timerSet :: (fetchLoopEvents oracle R B 0 ++ [FetchEvent.timerClear])
        = (FetchEvent.timerSet :: fetchLoopEvents oracle R B 0) ++ [FetchEvent.timerClear]
      from rfl]
    exact List.getLast?_concat _

/-! ## Batch Driver sinks (part_001 lines 411-455, part_002 lines 576-590)

part_001 (the 6pm one-by-one extractor) processes items sequentially and,
immediately after each item settles, appends one summary line to the
JSONL sink and all of the item's variant rows to the CSV sink — on
failure it appends one error summary line and no CSV rows — before moving
to the next item.  part_002 (the bulk Demandware extractor) instead
accumulates every item's output in memory and performs its only sink
writes (one combined JSON file, one combined CSV file) after all items
have been processed. -/

/-- What one settled batch item contributes: either a summary plus its
flat rows, or a thrown error converted to an error summary. -/
inductive ItemOutcome where
  | ok (summary : String) (rows : List String)
  | err (errSummary : String)
deriving DecidableEq

/-- State of the two append-only sinks. -/
structure SinkState where
  jsonl : List String
  csv : List String
deriving DecidableEq

def emptySink : SinkState := ⟨[], []⟩

/-- The per-item body of part_001's main loop: append the summary line,
then each variant row; on failure append only the error summary. -/
def appendItem (sink : SinkState) : ItemOutcome → SinkState
  | .ok summary rows => ⟨sink.jsonl ++ [summary], sink.csv ++ rows⟩
  | .err e => ⟨sink.jsonl ++ [e], sink.csv⟩

/-- part_001's driver loop over the already-settled item outcomes. -/
def runSeqDriver (sink : SinkState) (items : List ItemOutcome) : SinkState :=
  items.foldl appendItem sink

/-- The JSONL lines one item contributes. -/
def itemJsonl : ItemOutcome → List String
  | .ok s _ => [s]
  | .err e => [e]

/-- The CSV lines one item contributes. -/
def itemCsv : ItemOutcome → List String
  | .ok _ rows => rows
  | .err _ => []

/-- Sink-visible events of a batch driver run: an item settling, or a
write to one of the sinks. -/
inductive DriverEvent where
  | settled (i : Nat)
  | structWrite (lines : List String)
  | tabWrite (lines : List String)
deriving DecidableEq

def isSinkWrite : DriverEvent → Bool
  | .structWrite _ => true
  | .tabWrite _ => true
  | _ => false

/-- Event trace of part_002's main: all items are processed first (no
sink is touched while they settle), then bulk.json and bulk.csv are each
written exactly once with the accumulated output. -/
def bulkDriverTrace (items : List ItemOutcome) : List DriverEvent :=
  (List.range items.length).map DriverEvent.settled ++
    [DriverEvent.structWrite (items.flatMap itemJsonl),
     DriverEvent.tabWrite (items.flatMap itemCsv)]

/-- The sink contents accumulated by the writes in a trace prefix. -/
def sinkOfEvents (evs : List DriverEvent) : SinkState :=
  evs.foldl (fun sink ev =>
    match ev with
    | .settled _ => sink
    | .structWrite lines => ⟨sink.jsonl ++ lines, sink.csv⟩
    | .tabWrite lines => ⟨sink.jsonl, sink.csv ++ lines⟩) emptySink

theorem runSeqDriver_append (sink : SinkState) (items : List ItemOutcome) :
    runSeqDriver sink items =
      ⟨sink.jsonl ++ items.flatMap itemJsonl, sink.csv ++ items.flatMap itemCsv⟩ := by
  induction items generalizing sink with
  | nil => simp [runSeqDriver]
  | cons it its ih =>
    show runSeqDriver (appendItem sink it) its = _
    rw [ih (appendItem sink it)]
    cases it <;> simp [appendItem, itemJsonl, itemCsv]

/-- A concrete two-item batch, each item with one summary and one row. -/
def twoItems : List ItemOutcome :=
  [ItemOutcome.ok "summary1" ["row1"], ItemOutcome.ok "summary2" ["row2"]]

/-- C5 counterexample: in part_002's driver, with a two-item batch whose
first item produced one summary and one row, the sinks right after item 1
settles and before item 2 is dispatched (i.e. the writes in the trace
prefix strictly before the second settle event) are empty — they do not
contain item 1's summary record and flat rows as the claim requires,
because the bulk driver writes both sinks only once, after all items. -/
theorem bulkDriver_writes_nothing_between_items :
    sinkOfEvents ((bulkDriverTrace twoItems).takeWhile
        (fun ev => ev ≠ DriverEvent.settled 1)) = emptySink
    ∧ emptySink ≠ SinkState.mk ["summary1"] ["row1"] := by
  constructor
  · rfl
  · decide

/-- C5 (amended: the incremental-append discipline holds for part_001's
sequential driver; part_002's bulk driver instead writes both sinks once
after all items settle, so terminating it mid-batch leaves both sinks
empty): in part_001, after the first k items settle the two sinks contain
exactly the summary lines and flat rows of items 1..k in order and
nothing of items k+1..n; and in part_002, every sink write occurs after
every item has settled. -/
theorem batch_driver_sink_discipline (items : List ItemOutcome) (k : Nat)
    (hk : k ≤ items.length) :
    (runSeqDriver emptySink (items.take k) =
      ⟨(items.take k).flatMap itemJsonl, (items.take k).flatMap itemCsv⟩)
    ∧ (runSeqDriver emptySink (items.take (k + 1)) =
        match (items.take (k + 1)).drop k with
        | [] => runSeqDriver emptySink (items.take k)
        | it :: _ => appendItem (runSeqDriver emptySink (items.take k)) it)
    ∧ (∀ i j, (bulkDriverTrace items).get? i = some (DriverEvent.settled j) →
        ∀ m ev, (bulkDriverTrace items).get? m = some ev → isSinkWrite ev = true → i < m) := by
  refine ⟨?_, ?_, ?_⟩
  · rw [runSeqDriver_append]
    simp [emptySink]
  · rcases Nat.lt_or_ge k items.length with hlt | hge
    · have htake : items.take (k + 1) = items.take k ++ [items.get ⟨k, hlt⟩] := by
        rw [List.take_succ, List.getElem?_eq_getElem hlt]
        rfl
      rw [htake]
      have hdrop : (items.take k ++ [items.get ⟨k, hlt⟩]).drop k = [items.get ⟨k, hlt⟩] := by
        rw [List.drop_append_of_le_length (by simp [Nat.min_eq_left (Nat.le_of_lt hlt)])]
        simp [Nat.min_eq_left (Nat.le_of_lt hlt)]
      rw [hdrop]
      show runSeqDriver emptySink (items.take k ++ [items.get ⟨k, hlt⟩]) = _
      rw [runSeqDriver_append, runSeqDriver_append]
      cases items.get ⟨k, hlt⟩ <;> simp [appendItem, itemJsonl, itemCsv]
    · have h1 : items.take (k + 1) = items := List.take_of_length_le (by omega)
      have h2 : items.take k = items := List.take_of_length_le hge
      have h3 : items.drop k = [] := List.drop_eq_nil_of_le hge
      rw [h1, h2, h3]
  · intro i j hi m ev hm hw
    unfold bulkDriverTrace at hi hm
    have hilen : i < items.length := by
      by_contra hcon
      push_neg at hcon
      have hge : ((List.range items.length).map DriverEvent.settled).length ≤ i := by
        simpa using hcon
      rw [List.get?_append_right hge] at hi
      have hmem := List.get?_mem hi
      simp at hmem
    have hmge : items.length ≤ m := by
      by_contra hcon
      push_neg at hcon
      rw [List.get?_append (by simpa using hcon)] at hm
      rw [List.get?_map, List.get?_range hcon] at hm
      cases hm
      simp [isSinkWrite] at hw
    omega

/-- Witness for C5's amended theorem: after item 1 of the two-item batch,
the sequential driver's sinks hold exactly item 1's summary and row. -/
theorem batch_driver_sink_discipline_witness :
    runSeqDriver emptySink (twoItems.take 1) = SinkState.mk ["summary1"] ["row1"] :=
  (batch_driver_sink_discipline twoItems 1 (by decide)).1

/-! ## Dimension Discovery: extractVariationAttributes (part_002 lines
228-266, part_003 lines 147-185)

The base-attributes JSON is modelled structurally: a product carries an
optional array of variation attributes, each with optional id /
attributeId fields and an optional array of raw values.  Absent or
non-array JS fields are `none`; JS string falsiness ("" is falsy) is
modelled explicitly. -/

/-- JS `x || y` on optional strings: undefined/null and "" are falsy. -/
def jsOrOpt (x y : Option String) : Option String :=
  match x with
  | some s => if s = "" then y else some s
  | none => y

/-- JS `x || y` on plain strings: "" is falsy. -/
def jsOrS (x y : String) : String :=
  if x = "" then y else x

structure SwatchImage where
  absURL : Option String
  url : Option String
deriving DecidableEq

/-- One entry of a variation attribute's values array. -/
structure RawValue where
  value : Option String
  vid : Option String
  displayValue : Option String
  inStock : Option Bool
  selectable : Option Bool
  swatch : Option (List SwatchImage)
deriving DecidableEq

/-- One entry of product.variationAttributes. -/
structure VarAttr where
  id : Option String
  attributeId : Option String
  values : Option (List RawValue)
deriving DecidableEq

/-- The part of the base-attributes response product consumed by
extractVariationAttributes. -/
structure BaseProduct where
  variationAttributes : Option (List VarAttr)
deriving DecidableEq

/-- `(a?.id || a?.attributeId)` as used to locate the color and size
attributes. -/
def attrKey (a : VarAttr) : Option String :=
  jsOrOpt a.id a.attributeId

/-- A color value as extracted by the colors `.map`. -/
structure ColorVal where
  id : String
  name : Option String
  inStockHint : Option Bool
  swatch_url : Option String
deriving DecidableEq

/-- A size value as extracted by the sizes `.map` (or synthesized). -/
structure SizeVal where
  id : String
  label : Option String
  inStockHint : Option Bool
deriving DecidableEq

/-- `v?.images?.swatch?.[0]?.absURL || v?.images?.swatch?.[0]?.url || null`. -/
def swatchUrlOf (v : RawValue) : Option String :=
  match v.swatch with
  | some (img :: _) => jsOrOpt img.absURL (jsOrOpt img.url none)
  | _ => none

/-- `String(v?.value ?? v?.id ?? "")` (nullish coalescing keeps ""). -/
def valueId (v : RawValue) : String :=
  v.value.getD (v.vid.getD "")

/-- The colors pipeline: keep values not explicitly unselectable, map to
ColorVal, drop empty ids; absent or non-array values yield no colors. -/
def colorsOf (attr : Option VarAttr) : List ColorVal :=
  match attr with
  | some a =>
    match a.values with
    | some vs =>
      ((vs.filter (fun v => v.selectable ≠ some false)).map (fun v =>
        ⟨valueId v, v.displayValue, v.inStock, swatchUrlOf v⟩)).filter
          (fun c => c.id ≠ "")
    | none => []
  | none => []

/-- `Boolean(Array.isArray(sizeAttr?.values) && sizeAttr.values.length)`. -/
def hasSizeAttributeOf (attr : Option VarAttr) : Bool :=
  match attr with
  | some a =>
    match a.values with
    | some vs => vs.length ≠ 0
    | none => false
  | none => false

/-- The sizes pipeline, falling back to the single synthesized
placeholder value of id "NS" when the size attribute has no values. -/
def sizesOf (attr : Option VarAttr) : List SizeVal :=
  if hasSizeAttributeOf attr then
    match attr with
    | some a =>
      match a.values with
      | some vs =>
        ((vs.filter (fun v => v.selectable ≠ some false)).map (fun v =>
          ⟨valueId v, v.displayValue, v.inStock⟩)).filter (fun s => s.id ≠ "")
      | none => [⟨"NS", some "NS", none⟩]
    | none => [⟨"NS", some "NS", none⟩]
  else [⟨"NS", some "NS", none⟩]

/-- extractVariationAttributes (part_002 lines 228-266): locate the color
and size attributes by `(a?.id || a?.attributeId)`, extract their
selectable values, and synthesize the "NS" size when the size dimension
is missing. -/
def extractVariationAttributes (product : BaseProduct) :
    List ColorVal × List SizeVal × Bool :=
  let attrs := product.variationAttributes.getD []
  let colorAttr := attrs.find? (fun a => attrKey a = some "color")
  let sizeAttr := attrs.find? (fun a => attrKey a = some "size")
  (colorsOf colorAttr, sizesOf sizeAttr, hasSizeAttributeOf sizeAttr)

/-- C8: for every base-attributes product that lacks a size dimension (no
variation attribute is keyed "size"), Discovery synthesizes exactly one
placeholder size Value with id "NS" — the size Dimension is the singleton
NS value, in particular never empty — and hasSizeAttribute is false, so
the combination shape stays uniform with exactly one size per color:
the task list has exactly colors.length * 1 combinations. -/
theorem discovery_synthesizes_NS (product : BaseProduct)
    (hno : ∀ a ∈ product.variationAttributes.getD [], attrKey a ≠ some "size") :
    (extractVariationAttributes product).2.1 = [⟨"NS", some "NS", none⟩]
    ∧ (extractVariationAttributes product).2.2 = false
    ∧ (extractVariationAttributes product).2.1.length = 1
    ∧ (extractVariationAttributes product).2.1 ≠ []
    ∧ (productTasks (extractVariationAttributes product).1
        (extractVariationAttributes product).2.1).length =
        (extractVariationAttributes product).1.length * 1 := by
  have hfind : (product.variationAttributes.getD []).find?
      (fun a => attrKey a = some "size") = none := by
    rw [List.find?_eq_none]
    intro a ha
    simpa using hno a ha
  unfold extractVariationAttributes
  simp only [hfind]
  refine ⟨rfl, rfl, rfl, by simp [sizesOf, hasSizeAttributeOf], ?_⟩
  rw [productTasks_length]
  rfl

/-- Witness for C8's theorem: a product whose only variation attribute is
color gets the synthesized singleton NS size dimension. -/
theorem discovery_synthesizes_NS_witness :
    (extractVariationAttributes
      ⟨some [⟨some "color", none, some [⟨some "0001", none, some "Black", none, none, none⟩]⟩]⟩).2.1
      = [⟨"NS", some "NS", none⟩] :=
  (discovery_synthesizes_NS
    ⟨some [⟨some "color", none, some [⟨some "0001", none, some "Black", none, none, none⟩]⟩]⟩
    (by decide)).1

/-! ## Bounded Worker Pool: mapLimit (part_002 lines 268-283, part_003 187-202)

mapLimit spawns Math.max(1, limit) workers over a shared cursor idx and a
shared result array out.  Each worker loops: atomically claim my = idx++
(claim and bounds check run without interleaving in the event loop),
return when my is past the end, otherwise await mapper(items[my], my) and
store the settled value at out[my].  We model this as a nondeterministic
small-step transition system: a worker is ready (between loop
iterations), running a claimed index (awaiting its mapper), or done
(returned).  The mapper is a total function: every call site of mapLimit
in the source catches failures inside the mapper and returns them as
values, so every task settles. -/

inductive WStatus where
  | ready
  | running (i : Nat)
  | done
deriving DecidableEq

def isRunningW : WStatus → Bool
  | .running _ => true
  | _ => false

/-- A snapshot of one mapLimit call: the shared cursor idx, each worker's
status, and the shared out array (none = not yet written). -/
structure PoolState (β : Type) where
  nextIdx : Nat
  workers : List WStatus
  out : List (Option β)

/-- Math.max(1, limit) as applied to the (integer) limit argument. -/
def numWorkers (limit : Int) : Nat := (max 1 limit).toNat

/-- The settled value stored at out[i]: mapper(items[i], i). -/
def mapperAt (items : List α) (mapper : α → Nat → β) (i : Nat) : Option β :=
  (items.get? i).map (fun a => mapper a i)

/-- State at the start of a mapLimit call: idx = 0, Math.max(1, limit)
workers about to enter their loops, out = new Array(items.length). -/
def initState (items : List α) (limit : Int) : PoolState β :=
  ⟨0, List.replicate (numWorkers limit) WStatus.ready, List.replicate items.length none⟩

/-- One scheduler step of the pool:
claim — a ready worker atomically executes my = idx++ with my in range
and starts its mapper; exit — a ready worker executes my = idx++ with my
past the end and returns; finish — a running worker's mapper settles and
the worker stores the value at its claimed index and loops back. -/
inductive PoolStep (items : List α) (mapper : α → Nat → β) :
    PoolState β → PoolState β → Prop where
  | claim (s : PoolState β) (w : Nat) (hw : s.workers.get? w = some WStatus.ready)
      (hlt : s.nextIdx < items.length) :
      PoolStep items mapper s
        ⟨s.nextIdx + 1, s.workers.set w (WStatus.running s.nextIdx), s.out⟩
  | exit (s : PoolState β) (w : Nat) (hw : s.workers.get? w = some WStatus.ready)
      (hge : items.length ≤ s.nextIdx) :
      PoolStep items mapper s ⟨s.nextIdx + 1, s.workers.set w WStatus.done, s.out⟩
  | finish (s : PoolState β) (w i : Nat)
      (hw : s.workers.get? w = some (WStatus.running i)) :
      PoolStep items mapper s
        ⟨s.nextIdx, s.workers.set w WStatus.ready, s.out.set i (mapperAt items mapper i)⟩

/-- The states one mapLimit call can reach under any scheduling. -/
def PoolReach (items : List α) (mapper : α → Nat → β) (limit : Int)
    (s : PoolState β) : Prop :=
  Relation.ReflTransGen (PoolStep items mapper) (initState items limit) s

/-- Number of tasks in flight: workers currently awaiting their mapper. -/
def inFlight (s : PoolState β) : Nat :=
  s.workers.countP (fun st => isRunningW st)

/-- The call has completed: every worker has returned, so Promise.all has
resolved. -/
def allDone (s : PoolState β) : Prop :=
  ∀ st ∈ s.workers, st = WStatus.done

/-- Pool invariant maintained by every step. -/
structure PoolInv (items : List α) (mapper : α → Nat → β) (limit : Int)
    (s : PoolState β) : Prop where
  workers_len : s.workers.length = numWorkers limit
  out_len : s.out.length = items.length
  running_lt : ∀ w i, s.workers.get? w = some (WStatus.running i) →
    i < items.length ∧ i < s.nextIdx
  covered : ∀ i, i < items.length → i < s.nextIdx →
    s.out.get? i = some (mapperAt items mapper i)
    ∨ ∃ w, s.workers.get? w = some (WStatus.running i)
  done_next : WStatus.done ∈ s.workers → items.length ≤ s.nextIdx

theorem get?_set_self (l : List γ) (n : Nat) (a : γ) (h : n < l.length) :
    (l.set n a).get? n = some a := by
  induction l generalizing n with
  | nil => simp at h
  | cons x xs ih =>
    cases n with
    | zero => rfl
    | succ n => exact ih n (by simpa using h)

theorem get?_set_other (l : List γ) (m n : Nat) (a : γ) (h : m ≠ n) :
    (l.set m a).get? n = l.get? n := by
  induction l generalizing m n with
  | nil => simp
  | cons x xs ih =>
    cases m with
    | zero =>
      cases n with
      | zero => exact absurd rfl h
      | succ n => rfl
    | succ m =>
      cases n with
      | zero => rfl
      | succ n => exact ih m n (fun hc => h (by omega))

theorem numWorkers_pos (limit : Int) : 1 ≤ numWorkers limit := by
  unfold numWorkers
  have h1 : (1 : Int) ≤ max 1 limit := le_max_left 1 limit
  omega

theorem numWorkers_of_pos (limit : Int) (hK : 1 ≤ limit) :
    numWorkers limit = limit.toNat := by
  unfold numWorkers
  rw [max_eq_right hK]

theorem poolInv_init (items : List α) (mapper : α → Nat → β) (limit : Int) :
    PoolInv items mapper limit (initState items limit : PoolState β) := by
  constructor
  · simp [initState]
  · simp [initState]
  · intro w i hw
    have hmem := List.get?_mem hw
    have := List.eq_of_mem_replicate hmem
    exact absurd this.symm (by simp)
  · intro i _ hi
    exact absurd hi (by simp [initState])
  · intro hmem
    have := List.eq_of_mem_replicate hmem
    exact absurd this (by simp)

theorem poolInv_step (items : List α) (mapper : α → Nat → β) (limit : Int)
    (s s2 : PoolState β) (hinv : PoolInv items mapper limit s)
    (hstep : PoolStep items mapper s s2) : PoolInv items mapper limit s2 := by
  cases hstep with
  | claim w hw hlt =>
    have hwlt : w < s.workers.length := (List.get?_eq_some.mp hw).1
    constructor
    · simpa using hinv.workers_len
    · exact hinv.out_len
    · intro w2 i h2
      by_cases hval : w2 = w
      · rw [hval, get?_set_self s.workers w _ hwlt] at h2
        cases h2
        exact ⟨hlt, Nat.lt_succ_self _⟩
      · rw [get?_set_other s.workers w w2 _ (fun hc => hval hc.symm)] at h2
        have := hinv.running_lt w2 i h2
        exact ⟨this.1, Nat.lt_succ_of_lt this.2⟩
    · intro i hi hlt2
      by_cases hval : i = s.nextIdx
      · right
        exact ⟨w, by rw [hval, get?_set_self s.workers w _ hwlt]⟩
      · have hlt3 : i < s.nextIdx + 1 := hlt2
        have hi2 : i < s.nextIdx := by omega
        rcases hinv.covered i hi hi2 with hout | ⟨w2, hw2⟩
        · exact Or.inl hout
        · right
          have hne : w2 ≠ w := by
            intro hc
            rw [hc, hw] at hw2
            cases hw2
          exact ⟨w2, by rw [get?_set_other s.workers w w2 _ (fun hc => hne hc.symm)]; exact hw2⟩
    · intro hmem
      rcases List.mem_or_eq_of_mem_set hmem with hold | hnew
      · exact Nat.le_succ_of_le (hinv.done_next hold)
      · cases hnew
  | exit w hw hge =>
    have hwlt : w < s.workers.length := (List.get?_eq_some.mp hw).1
    constructor
    · simpa using hinv.workers_len
    · exact hinv.out_len
    · intro w2 i h2
      by_cases hval : w2 = w
      · rw [hval, get?_set_self s.workers w _ hwlt] at h2
        cases h2
      · rw [get?_set_other s.workers w w2 _ (fun hc => hval hc.symm)] at h2
        have := hinv.running_lt w2 i h2
        exact ⟨this.1, Nat.lt_succ_of_lt this.2⟩
    · intro i hi hlt2
      have hi2 : i < s.nextIdx := by omega
      rcases hinv.covered i hi hi2 with hout | ⟨w2, hw2⟩
      · exact Or.inl hout
      · right
        have hne : w2 ≠ w := by
          intro hc
          rw [hc, hw] at hw2
          cases hw2
        exact ⟨w2, by rw [get?_set_other s.workers w w2 _ (fun hc => hne hc.symm)]; exact hw2⟩
    · intro _
      exact Nat.le_succ_of_le hge
  | finish w i hw =>
    have hwlt : w < s.workers.length := (List.get?_eq_some.mp hw).1
    have hi := hinv.running_lt w i hw
    constructor
    · simpa using hinv.workers_len
    · simpa using hinv.out_len
    · intro w2 i2 h2
      by_cases hval : w2 = w
      · rw [hval, get?_set_self s.workers w _ hwlt] at h2
        cases h2
      · rw [get?_set_other s.workers w w2 _ (fun hc => hval hc.symm)] at h2
        exact hinv.running_lt w2 i2 h2
    · intro i2 hi2 hlt2
      by_cases hval : i2 = i
      · left
        rw [hval, get?_set_self s.out i _ (by rw [hinv.out_len]; exact hi.1)]
      · rcases hinv.covered i2 hi2 hlt2 with hout | ⟨w2, hw2⟩
        · left
          rw [get?_set_other s.out i i2 _ (fun hc => hval hc.symm)]
          exact hout
        · right
          have hne : w2 ≠ w := by
            intro hc
            rw [hc, hw] at hw2
            cases hw2
            exact hval rfl
          exact ⟨w2, by rw [get?_set_other s.workers w w2 _ (fun hc => hne hc.symm)]; exact hw2⟩
    · intro hmem
      rcases List.mem_or_eq_of_mem_set hmem with hold | hnew
      · exact hinv.done_next hold
      · cases hnew

theorem poolInv_reach (items : List α) (mapper : α → Nat → β) (limit : Int)
    (s : PoolState β) (hreach : PoolReach items mapper limit s) :
    PoolInv items mapper limit s := by
  induction hreach with
  | refl => exact poolInv_init items mapper limit
  | tail hr hstep ih => exact poolInv_step items mapper limit _ _ ih hstep

/-- The concurrency bound: there are only numWorkers limit workers, each
holding at most one in-flight task. -/
theorem pool_inFlight_le (items : List α) (mapper : α → Nat → β) (limit : Int)
    (s : PoolState β) (hreach : PoolReach items mapper limit s) :
    inFlight s ≤ numWorkers limit := by
  have hlen := (poolInv_reach items mapper limit s hreach).workers_len
  calc inFlight s ≤ s.workers.length := List.countP_le_length _
    _ = numWorkers limit := hlen

/-- At completion the out array is fully populated with each task's
settled value at its own index. -/
theorem pool_terminal_out (items : List α) (mapper : α → Nat → β) (limit : Int)
    (s : PoolState β) (hreach : PoolReach items mapper limit s) (hdone : allDone s) :
    s.out.length = items.length
    ∧ ∀ (i : Nat) (h : i < items.length),
        s.out.get? i = some (some (mapper (items.get ⟨i, h⟩) i)) := by
  have hinv := poolInv_reach items mapper limit s hreach
  refine ⟨hinv.out_len, ?_⟩
  intro i h
  have hwne : s.workers ≠ [] := by
    intro hc
    have hlen := hinv.workers_len
    rw [hc] at hlen
    have hpos := numWorkers_pos limit
    simp at hlen
    omega
  have hdmem : WStatus.done ∈ s.workers := by
    obtain ⟨st, hmem⟩ : ∃ st, st ∈ s.workers := by
      cases hws : s.workers with
      | nil => exact absurd hws hwne
      | cons a l => exact ⟨a, by simp [hws]⟩
    have hst := hdone st hmem
    rwa [hst] at hmem
  have hnext := hinv.done_next hdmem
  rcases hinv.covered i h (by omega) with hout | ⟨w, hw⟩
  · rw [hout]
    unfold mapperAt
    rw [List.get?_eq_get h]
    rfl
  · have hmem := List.get?_mem hw
    have := hdone _ hmem
    cases this

/-- Any non-terminal reachable state can step. -/
theorem pool_progress (items : List α) (mapper : α → Nat → β)
    (s : PoolState β) (hnd : ¬ allDone s) :
    ∃ s2, PoolStep items mapper s s2 := by
  unfold allDone at hnd
  push_neg at hnd
  obtain ⟨st, hmem, hne⟩ := hnd
  obtain ⟨w, hw⟩ := List.mem_iff_get?.mp hmem
  cases st with
  | ready =>
    rcases Nat.lt_or_ge s.nextIdx items.length with hlt | hge
    · exact ⟨_, PoolStep.claim s w hw hlt⟩
    · exact ⟨_, PoolStep.exit s w hw hge⟩
  | running i => exact ⟨_, PoolStep.finish s w i hw⟩
  | done => exact absurd rfl hne

def workerWeight : WStatus → Nat
  | .ready => 1
  | .running _ => 3
  | .done => 0

def weightSum (ws : List WStatus) : Nat := (ws.map workerWeight).sum

/-- Termination measure for the pool: decreases on every step. -/
def poolMeasure (items : List α) (s : PoolState β) : Nat :=
  3 * ((items.length + s.workers.length) - s.nextIdx) + weightSum s.workers

theorem weightSum_set (ws : List WStatus) (w : Nat) (st st2 : WStatus)
    (hw : ws.get? w = some st) :
    weightSum (ws.set w st2) + workerWeight st = weightSum ws + workerWeight st2 := by
  induction ws generalizing w with
  | nil => simp at hw
  | cons x xs ih =>
    cases w with
    | zero =>
      cases hw
      simp [weightSum, List.set]
      omega
    | succ w =>
      have := ih w hw
      simp [weightSum, List.set] at this ⊢
      omega

theorem poolStep_measure (items : List α) (mapper : α → Nat → β)
    (s s2 : PoolState β) (hstep : PoolStep items mapper s s2) :
    poolMeasure items s2 < poolMeasure items s := by
  cases hstep with
  | claim w hw hlt =>
    have hws := weightSum_set s.workers w _ (WStatus.running s.nextIdx) hw
    unfold poolMeasure
    simp only [List.length_set]
    simp [workerWeight] at hws
    omega
  | exit w hw hge =>
    have hws := weightSum_set s.workers w _ WStatus.done hw
    unfold poolMeasure
    simp only [List.length_set]
    simp [workerWeight] at hws
    have hwlt : w < s.workers.length := (List.get?_eq_some.mp hw).1
    omega
  | finish w i hw =>
    have hws := weightSum_set s.workers w _ WStatus.ready hw
    unfold poolMeasure
    simp only [List.length_set]
    simp [workerWeight] at hws
    omega

/-- Every reachable state can be extended to a completed state: the pool
terminates under any scheduling. -/
theorem pool_completes (items : List α) (mapper : α → Nat → β) (limit : Int)
    (s : PoolState β) (hreach : PoolReach items mapper limit s) :
    ∃ s2, Relation.ReflTransGen (PoolStep items mapper) s s2 ∧ allDone s2 := by
  suffices h : ∀ n (s : PoolState β), poolMeasure items s ≤ n →
      PoolReach items mapper limit s →
      ∃ s2, Relation.ReflTransGen (PoolStep items mapper) s s2 ∧ allDone s2 from
    h (poolMeasure items s) s le_rfl hreach
  intro n
  induction n with
  | zero =>
    intro s hm hreach
    by_cases hdone : allDone s
    · exact ⟨s, Relation.ReflTransGen.refl, hdone⟩
    · obtain ⟨s2, hstep⟩ := pool_progress items mapper s hdone
      have := poolStep_measure items mapper s s2 hstep
      omega
  | succ n ih =>
    intro s hm hreach
    by_cases hdone : allDone s
    · exact ⟨s, Relation.ReflTransGen.refl, hdone⟩
    · obtain ⟨s2, hstep⟩ := pool_progress items mapper s hdone
      have hlt := poolStep_measure items mapper s s2 hstep
      obtain ⟨s3, hr3, hd3⟩ := ih s2 (by omega) (hreach.tail hstep)
      exact ⟨s3, Relation.ReflTransGen.head hstep hr3, hd3⟩

/-- C1: for every concurrency limit K ≥ 1 and every ordered task list,
under any scheduling (a) at no reachable instant are more than K tasks in
flight; (b) whenever the pool has completed (every worker returned, which
is exactly when Promise.all resolves), the result array has exactly one
entry per task and the entry at index i is the mapper's settled output
for items[i] — completion therefore only happens with every task settled
and no result misattributed; and (c) from every reachable state the pool
does complete. -/
theorem mapLimit_pool_correct (items : List α) (mapper : α → Nat → β) (limit : Int)
    (hK : 1 ≤ limit) :
    (∀ s : PoolState β, PoolReach items mapper limit s → inFlight s ≤ limit.toNat)
    ∧ (∀ s : PoolState β, PoolReach items mapper limit s → allDone s →
        s.out.length = items.length
        ∧ ∀ (i : Nat) (h : i < items.length),
            s.out.get? i = some (some (mapper (items.get ⟨i, h⟩) i)))
    ∧ (∀ s : PoolState β, PoolReach items mapper limit s →
        ∃ s2, Relation.ReflTransGen (PoolStep items mapper) s s2 ∧ allDone s2) := by
  refine ⟨?_, ?_, ?_⟩
  · intro s hreach
    have := pool_inFlight_le items mapper limit s hreach
    rwa [numWorkers_of_pos limit hK] at this
  · intro s hreach hdone
    exact pool_terminal_out items mapper limit s hreach hdone
  · intro s hreach
    exact pool_completes items mapper limit s hreach

/-- Witness for C1's theorem: with K = 2 and three tasks, the initial
state has at most 2 tasks in flight. -/
theorem mapLimit_pool_correct_witness :
    inFlight (initState ([10, 20, 30] : List Nat) 2 : PoolState Nat) ≤ (2 : Int).toNat :=
  (mapLimit_pool_correct [10, 20, 30] (fun a _ => a + 1) 2 (by decide)).1
    (initState [10, 20, 30] 2) Relation.ReflTransGen.refl

/-- C9: the limit argument is clamped at the interface: for every integer
limit, including 0 and negative values, mapLimit spawns Math.max(1,
limit) workers — in particular exactly one worker when limit < 1 — and
with that worker count the pool still completes from every reachable
state and every completed state carries the fully populated,
correctly-indexed result array (it behaves as K = 1 rather than
deadlocking or returning an empty or partial array). -/
theorem mapLimit_clamps_nonpositive_limit (items : List α) (mapper : α → Nat → β)
    (limit : Int) :
    ((initState items limit : PoolState β).workers.length = numWorkers limit)
    ∧ (limit < 1 → (initState items limit : PoolState β).workers.length = 1)
    ∧ (1 ≤ (initState items limit : PoolState β).workers.length)
    ∧ (∀ s : PoolState β, PoolReach items mapper limit s → allDone s →
        s.out.length = items.length
        ∧ ∀ (i : Nat) (h : i < items.length),
            s.out.get? i = some (some (mapper (items.get ⟨i, h⟩) i)))
    ∧ (∀ s : PoolState β, PoolReach items mapper limit s →
        ∃ s2, Relation.ReflTransGen (PoolStep items mapper) s s2 ∧ allDone s2) := by
  refine ⟨by simp [initState], ?_, ?_, ?_, ?_⟩
  · intro hlt
    have : max 1 limit = 1 := max_eq_left (by omega)
    simp [initState, numWorkers, this]
  · have := numWorkers_pos limit
    simp [initState]
    omega
  · intro s hreach hdone
    exact pool_terminal_out items mapper limit s hreach hdone
  · intro s hreach
    exact pool_completes items mapper limit s hreach

/-- Witness for C9's theorem: limit 0 yields exactly one worker. -/
theorem mapLimit_clamps_nonpositive_limit_witness :
    (initState ([10, 20] : List Nat) 0 : PoolState Nat).workers.length = 1 :=
  (mapLimit_clamps_nonpositive_limit [10, 20] (fun a _ => a) 0).2.1 (by decide)

/-! ## Per-combination fetch: the mapper of extractOneProduct (part_002
lines 382-473, part_003 lines 317-359)

Each (color, size) task fetches the variation endpoint inside a
try/catch: on success it builds a success row with error "", on any
thrown failure it builds an error row whose error field carries
String(e?.message || e) — nothing escapes the mapper. -/

/-- The fields of the Product-Variation response product used by the row
builder. -/
structure VariationProduct where
  selectedVariationProductId : Option String
  pid : Option String
  available : Bool
  isNotifyMeActive : Bool
deriving DecidableEq

/-- One VariantRecord row (the fields of the row literal relevant to the
claims: identity of the combination, success flag, variant sku, error). -/
structure VariantRow where
  ok : Bool
  color_id : String
  color_name : Option String
  size_id : String
  size_label : String
  variant_sku : String
  error : String
deriving DecidableEq

/-- The try/catch body of the mapper for one (color, size) combination,
as a function of the fetch outcome for that combination. -/
def variantRowFor (c : ColorVal) (s : SizeVal) :
    Except String VariationProduct → VariantRow
  | .ok p =>
    ⟨true, c.id, c.name, jsOrS s.id "NS", jsOrS (s.label.getD "") (jsOrS s.id "NS"),
      p.selectedVariationProductId.getD (p.pid.getD ""), ""⟩
  | .error e =>
    ⟨false, c.id, c.name, jsOrS s.id "NS", jsOrS (s.label.getD "") (jsOrS s.id "NS"),
      "", e⟩

/-- The per-item result list: one row per generated combination, in
generation order (by C1's pool theorems, mapLimit's completed out array
is exactly this list). -/
def extractResults (colors : List ColorVal) (sizes : List SizeVal)
    (oracle : ColorVal × SizeVal → Except String VariationProduct) : List VariantRow :=
  (productTasks colors sizes).map (fun t => variantRowFor t.1 t.2 (oracle t))

/-- C4: for an item whose discovery succeeded (nonempty colors), every
generated combination yields exactly one terminal VariantRecord: the
result list has exactly one entry per (color, size) combination,
index-aligned with the generated task list; each entry is either a
success row with empty error or an error row whose error field carries
the fetch failure (failures are captured, never thrown, since the row
builder is total); each row carries its own combination's color and size
ids; and any completed pool run over these tasks produces exactly this
list, so aggregation always completes with one record per combination. -/
theorem one_variant_record_per_combination (colors : List ColorVal) (sizes : List SizeVal)
    (oracle : ColorVal × SizeVal → Except String VariationProduct)
    (_hdisc : colors ≠ []) (limit : Int) :
    (extractResults colors sizes oracle).length = colors.length * sizes.length
    ∧ (∀ (i : Nat) (h : i < (productTasks colors sizes).length),
        (extractResults colors sizes oracle).get? i =
          some (variantRowFor ((productTasks colors sizes).get ⟨i, h⟩).1
            ((productTasks colors sizes).get ⟨i, h⟩).2
            (oracle ((productTasks colors sizes).get ⟨i, h⟩))))
    ∧ (∀ t ∈ productTasks colors sizes,
        ((variantRowFor t.1 t.2 (oracle t)).ok = true
          ∧ (variantRowFor t.1 t.2 (oracle t)).error = ""
          ∧ ∃ p, oracle t = .ok p)
        ∨ (∃ e, oracle t = .error e
          ∧ (variantRowFor t.1 t.2 (oracle t)).ok = false
          ∧ (variantRowFor t.1 t.2 (oracle t)).error = e))
    ∧ (∀ t ∈ productTasks colors sizes,
        (variantRowFor t.1 t.2 (oracle t)).color_id = t.1.id
        ∧ (variantRowFor t.1 t.2 (oracle t)).size_id = jsOrS t.2.id "NS")
    ∧ (∀ s : PoolState VariantRow,
        PoolReach (productTasks colors sizes)
          (fun t _ => variantRowFor t.1 t.2 (oracle t)) limit s →
        allDone s →
        s.out.length = (productTasks colors sizes).length
        ∧ ∀ (i : Nat) (h : i < (productTasks colors sizes).length),
            s.out.get? i = some (some (variantRowFor
              ((productTasks colors sizes).get ⟨i, h⟩).1
              ((productTasks colors sizes).get ⟨i, h⟩).2
              (oracle ((productTasks colors sizes).get ⟨i, h⟩))))) := by
  refine ⟨?_, ?_, ?_, ?_, ?_⟩
  · unfold extractResults
    rw [List.length_map, productTasks_length]
  · intro i h
    unfold extractResults
    rw [List.get?_map, List.get?_eq_get h]
    rfl
  · intro t _
    cases hor : oracle t with
    | ok p => exact Or.inl ⟨rfl, rfl, p, rfl⟩
    | error e => exact Or.inr ⟨e, rfl, rfl, rfl⟩
  · intro t _
    cases hor : oracle t with
    | ok p => exact ⟨rfl, rfl⟩
    | error e => exact ⟨rfl, rfl⟩
  · intro s hreach hdone
    exact pool_terminal_out (productTasks colors sizes)
      (fun t _ => variantRowFor t.1 t.2 (oracle t)) limit s hreach hdone

/-- Witness for C4's theorem at a one-color, one-size item whose single
fetch fails: the single row is an error row carrying the message. -/
theorem one_variant_record_per_combination_witness :
    (extractResults [⟨"0001", some "Black", none, none⟩] [⟨"NS", some "NS", none⟩]
      (fun _ => Except.error "HTTP 403")).length = 1 * 1 :=
  (one_variant_record_per_combination [⟨"0001", some "Black", none, none⟩]
    [⟨"NS", some "NS", none⟩] (fun _ => Except.error "HTTP 403")
    (by decide) 6).1

end Scarp
